import Mathlib

/-!
Shallow embedding of the rootsearch core (graph dedup, builder, scoring)
with proofs about its behaviour. Floats are modelled as rationals;
Python dicts are modelled as association lists preserving insertion
order; Python exceptions are modelled with Except / Option.
-/

set_option allowUnsafeReducibility true

attribute [semireducible] Rat.mul Rat.inv Rat.div Rat.add Rat.sub Rat.neg Rat.blt
  Rat.normalize Rat.maybeNormalize

namespace Rootsearch

/-- Provenance record attached to a node (models SourceRef in models.py). -/
structure SourceRef where
  source_type : String
  source_id : String
  evidence_quote : String
deriving Repr, DecidableEq

/-- Canonical node record (models Node in models.py; only fields the core
reads are kept, with the same names). -/
structure Node where
  node_id : String
  type : String
  granularity : String
  title : String
  description : String
  fields : List String
  status : String
  confidence : ℚ
  sources : List SourceRef
  extraction_method : String
  cross_field_ref : Bool
  parent_id : Option String
  children_ids : List String
deriving Repr, DecidableEq

/-- Canonical edge record (models Edge in models.py). -/
structure Edge where
  edge_id : String
  type : String
  source_node_id : String
  target_node_id : String
  strength : ℚ
  confidence : ℚ
  mechanism : String
  extraction_method : String
deriving Repr, DecidableEq

/-- Node attributes stored on the graph by build_graph. -/
structure NodeAttrs where
  title : String
  type : String
  granularity : String
  description : String
  fields : List String
  confidence : ℚ
  status : String
  extraction_method : String
  cross_field_ref : Bool
deriving Repr, DecidableEq

/-- Edge attributes stored on the graph by build_graph. -/
structure EdgeAttrs where
  edge_id : String
  type : String
  strength : ℚ
  confidence : ℚ
  mechanism : String
  extraction_method : String
deriving Repr, DecidableEq

/-- Directed graph with insertion-ordered node and edge lists, modelling
the networkx DiGraph as used by this code base: at most one node per id,
at most one edge per ordered (source, target) pair. -/
structure DiGraph where
  nodes : List (String × NodeAttrs)
  edges : List (String × String × EdgeAttrs)
deriving Repr, DecidableEq

def DiGraph.nodeIds (g : DiGraph) : List String := g.nodes.map (·.1)

/-- Model of DiGraph.add_node: an existing id has its attributes replaced
in place, a new id is appended. -/
def addNode (g : DiGraph) (id : String) (a : NodeAttrs) : DiGraph :=
  if g.nodeIds.contains id then
    { g with nodes := g.nodes.map (fun p => if p.1 == id then (id, a) else p) }
  else
    { g with nodes := g.nodes ++ [(id, a)] }

/-- Model of DiGraph.add_edge as used by build_graph (both endpoints are
already nodes there): an existing (u, v) edge has its attributes replaced
in place, a new pair is appended. -/
def addEdge (g : DiGraph) (u v : String) (a : EdgeAttrs) : DiGraph :=
  if g.edges.any (fun e => e.1 == u && e.2.1 == v) then
    { g with edges := g.edges.map (fun e => if e.1 == u && e.2.1 == v then (u, v, a) else e) }
  else
    { g with edges := g.edges ++ [(u, v, a)] }

def nodeAttrsOf (n : Node) : NodeAttrs :=
  { title := n.title, type := n.type, granularity := n.granularity,
    description := n.description, fields := n.fields, confidence := n.confidence,
    status := n.status, extraction_method := n.extraction_method,
    cross_field_ref := n.cross_field_ref }

def edgeAttrsOf (e : Edge) : EdgeAttrs :=
  { edge_id := e.edge_id, type := e.type, strength := e.strength,
    confidence := e.confidence, mechanism := e.mechanism,
    extraction_method := e.extraction_method }

/-- Node phase of build_graph: every node added in order. -/
def nodesGraph (nodes : List Node) : DiGraph :=
  nodes.foldl (fun g n => addNode g n.node_id (nodeAttrsOf n)) ⟨[], []⟩

/-- Edge step of build_graph: skip an edge whose endpoints are missing or
equal, otherwise add it. -/
def addEdgeChecked (g : DiGraph) (e : Edge) : DiGraph :=
  if !(g.nodeIds.contains e.source_node_id) || !(g.nodeIds.contains e.target_node_id) then g
  else if e.source_node_id == e.target_node_id then g
  else addEdge g e.source_node_id e.target_node_id (edgeAttrsOf e)

/-- Model of builder.build_graph: add every node, then add each edge,
skipping edges whose endpoints are missing and self-loop edges. -/
def build_graph (nodes : List Node) (edges : List Edge) : DiGraph :=
  edges.foldl addEdgeChecked (nodesGraph nodes)

/-- An input edge survives build_graph exactly when both endpoints exist
after the node phase and it is not a self-loop. -/
def validEdge (g0 : DiGraph) (e : Edge) : Bool :=
  g0.nodeIds.contains e.source_node_id && g0.nodeIds.contains e.target_node_id &&
    e.source_node_id != e.target_node_id

/-- Association-list lookup with default 0, modelling dict.get(k, 0.0). -/
def lookupQ (l : List (String × ℚ)) (k : String) : ℚ :=
  match l.find? (fun p => p.1 == k) with
  | some p => p.2
  | none => 0

/-- Model of scoring._enables_subgraph: all nodes, only ENABLES and
PRODUCES_FOR edges. -/
def enablesSubgraph (g : DiGraph) : DiGraph :=
  { nodes := g.nodes,
    edges := g.edges.filter (fun e => e.2.2.type == "ENABLES" || e.2.2.type == "PRODUCES_FOR") }

def outEdges (g : DiGraph) (u : String) : List (String × String × EdgeAttrs) :=
  g.edges.filter (fun e => e.1 == u)

/-- Model of scoring min-max normalization of a score dict to the unit
interval, with the all-equal guard. -/
def normalizeScores (scores : List (String × ℚ)) : List (String × ℚ) :=
  match scores with
  | [] => []
  | p :: rest =>
    let lo := rest.foldl (fun m q => min m q.2) p.2
    let hi := rest.foldl (fun m q => max m q.2) p.2
    if hi = lo then (p :: rest).map (fun q => (q.1, 0))
    else (p :: rest).map (fun q => (q.1, (q.2 - lo) / (hi - lo)))

/-- Maximum of a list of rationals; none on the empty list, modelling that
Python max() raises ValueError on an empty sequence. -/
def listMaxQ : List ℚ → Option ℚ
  | [] => none
  | x :: xs => some (xs.foldl max x)

def listMinQ : List ℚ → Option ℚ
  | [] => none
  | x :: xs => some (xs.foldl min x)

/-- Raw cascade contribution of one node: sum over its outgoing edges of
strength times confidence times the importance of the target. -/
def rawScore (sub : DiGraph) (importance : List (String × ℚ)) (n : String) : ℚ :=
  ((outEdges sub n).map (fun e => e.2.2.strength * e.2.2.confidence * lookupQ importance e.2.1)).sum

/-- One fuel step per Python loop iteration of compute_cascade_scores:
compute raw scores, refresh importance, test convergence against the
previous raw scores. The error value models the ValueError that max()
raises when the node list is empty. -/
def cascadeIter (sub : DiGraph) (nodes : List String) (damping tolerance : ℚ) :
    Nat → List (String × ℚ) → List (String × ℚ) → Except String (List (String × ℚ))
  | 0, _, scores => .ok scores
  | fuel + 1, importance, scores =>
    let new := nodes.map (fun n => (n, rawScore sub importance n))
    match listMaxQ (nodes.map (fun n => |lookupQ new n - lookupQ scores n|)) with
    | none => .error "ValueError: max arg is an empty sequence"
    | some delta =>
      if delta < tolerance then .ok new
      else cascadeIter sub nodes damping tolerance fuel
        (nodes.map (fun n => (n, 1 + damping * lookupQ new n))) new

/-- Model of scoring.compute_cascade_scores. -/
def compute_cascade_scores (g : DiGraph) (max_iterations : Nat) (damping tolerance : ℚ) :
    Except String (List (String × ℚ)) :=
  let sub := enablesSubgraph g
  let nodes := sub.nodeIds
  cascadeIter sub nodes damping tolerance max_iterations
    (nodes.map (fun n => (n, 1))) (nodes.map (fun n => (n, 0)))

/-- compute_cascade_scores at its default arguments. -/
def cascadeDefaults (g : DiGraph) : Except String (List (String × ℚ)) :=
  compute_cascade_scores g 100 (85/100) (1/1000000)

/-- Characters before the first dot. -/
def takeUntilDot : List Char → List Char
  | [] => []
  | c :: cs => if c = '.' then [] else c :: takeUntilDot cs

/-- Text before the first dot of a field tag, as f.split(".")[0]. -/
def domainOf (f : String) : String := ⟨takeUntilDot f.toList⟩

/-- Model of the dict update reach[domain] = max(reach.get(domain, 0.0), w),
keeping insertion order. -/
def updateMaxQ (l : List (String × ℚ)) (k : String) (v : ℚ) : List (String × ℚ) :=
  if l.any (fun p => p.1 == k) then
    l.map (fun p => if p.1 == k then (k, max p.2 v) else p)
  else l ++ [(k, max 0 v)]

/-- Process the outgoing edges of one dequeued BFS node: each unvisited
neighbor is visited, contributes its cross-domain field tags at the path
weight, and is appended to the queue. Returns (visited, reach, appended
queue entries). -/
def visitNeighbors (sub : DiGraph) (startDomains : List String) (weight : ℚ) :
    List (String × String × EdgeAttrs) → List String → List (String × ℚ) → List (String × ℚ) →
    List String × List (String × ℚ) × List (String × ℚ)
  | [], visited, reach, newQ => (visited, reach, newQ)
  | e :: es, visited, reach, newQ =>
    let neighbor := e.2.1
    if visited.contains neighbor then
      visitNeighbors sub startDomains weight es visited reach newQ
    else
      let ew := weight * e.2.2.strength * e.2.2.confidence
      let nodeFields := ((sub.nodes.find? (fun p => p.1 == neighbor)).map (fun p => p.2.fields)).getD []
      let reach2 := nodeFields.foldl
        (fun r f => if startDomains.contains (domainOf f) then r else updateMaxQ r (domainOf f) ew)
        reach
      visitNeighbors sub startDomains weight es (visited ++ [neighbor]) reach2 (newQ ++ [(neighbor, ew)])

/-- BFS loop of compute_cross_field_leverage, with explicit fuel; each
node is enqueued at most once so fuel larger than the node count makes
the fuel bound unreachable. -/
def crossFieldBfs (sub : DiGraph) (startDomains : List String) :
    Nat → List (String × ℚ) → List String → List (String × ℚ) → List (String × ℚ)
  | 0, _, _, reach => reach
  | _ + 1, [], _, reach => reach
  | fuel + 1, (node, weight) :: rest, visited, reach =>
    let r := visitNeighbors sub startDomains weight (outEdges sub node) visited reach []
    crossFieldBfs sub startDomains fuel (rest ++ r.2.2) r.1 r.2.1

/-- Model of scoring.compute_cross_field_leverage. -/
def compute_cross_field_leverage (g : DiGraph) : List (String × ℚ) :=
  let sub := enablesSubgraph g
  sub.nodes.map (fun p =>
    let startDomains := p.2.fields.map domainOf
    let reach := crossFieldBfs sub startDomains (sub.nodes.length + 1) [(p.1, 1)] [p.1] []
    (p.1, (reach.map (·.2)).sum))

/-- Inverse edge weight used for betweenness, 1 / max(strength*confidence, 1e-6). -/
def btwnWeight (a : EdgeAttrs) : ℚ := 1 / max (a.strength * a.confidence) (1/1000000)

def edgeBtwnWeight (sub : DiGraph) (u v : String) : ℚ :=
  ((sub.edges.find? (fun e => e.1 == u && e.2.1 == v)).map (fun e => btwnWeight e.2.2)).getD 0

/-- All simple directed paths from u to t avoiding the visited list. -/
def simplePathsAux (sub : DiGraph) (t : String) : Nat → String → List String → List (List String)
  | 0, _, _ => []
  | fuel + 1, u, visited =>
    if u == t then [[u]]
    else
      ((outEdges sub u).filter (fun e => !(visited.contains e.2.1))).foldr
        (fun e acc =>
          ((simplePathsAux sub t fuel e.2.1 (visited ++ [e.2.1])).map (fun p => u :: p)) ++ acc)
        []

def simplePaths (sub : DiGraph) (s t : String) : List (List String) :=
  simplePathsAux sub t (sub.nodes.length + 1) s [s]

def pathWeight (sub : DiGraph) : List String → ℚ
  | u :: v :: rest => edgeBtwnWeight sub u v + pathWeight sub (v :: rest)
  | _ => 0

/-- Paths of minimal total inverse weight between two nodes. With positive
edge weights every weighted shortest path is simple, so this is the set of
shortest paths betweenness counts. -/
def minWeightPaths (sub : DiGraph) (s t : String) : List (List String) :=
  let ps := simplePaths sub s t
  match listMinQ (ps.map (pathWeight sub)) with
  | none => []
  | some m => ps.filter (fun p => pathWeight sub p == m)

/-- Fraction of shortest s-to-t paths passing through v (0 when no path). -/
def pairDependency (sub : DiGraph) (s t v : String) : ℚ :=
  let mps := minWeightPaths sub s t
  if mps.length = 0 then 0
  else ((mps.filter (fun p => p.contains v)).length : ℚ) / (mps.length : ℚ)

/-- Weighted betweenness centrality of one node, normalized by
(n-1)(n-2) for directed graphs with more than two nodes, as
networkx.betweenness_centrality does. -/
def betweennessOf (sub : DiGraph) (v : String) : ℚ :=
  let ids := sub.nodeIds
  let total := (ids.map (fun s =>
    (ids.map (fun t =>
      if s ≠ t ∧ s ≠ v ∧ t ≠ v then pairDependency sub s t v else 0)).sum)).sum
  if 2 < ids.length then total / (((ids.length : ℚ) - 1) * ((ids.length : ℚ) - 2)) else total

/-- Model of scoring.compute_bottleneck_centrality, including the early
all-zero return on an edgeless restricted subgraph. -/
def compute_bottleneck_centrality (g : DiGraph) : List (String × ℚ) :=
  let sub := enablesSubgraph g
  if sub.edges.length = 0 then sub.nodes.map (fun p => (p.1, 0))
  else sub.nodes.map (fun p => (p.1, betweennessOf sub p.1))

/-- Metric weight map of compute_leverage_index (the three keys the code
reads from the weights dict). -/
structure Weights where
  cascade : ℚ
  cross_field : ℚ
  bottleneck : ℚ
deriving Repr, DecidableEq

def defaultWeights : Weights := ⟨45/100, 30/100, 25/100⟩

/-- Stable insertion keeping descending score order: a later row goes
after every earlier row with score at least its own, matching a stable
sort ascending on the negated score. -/
def insertByScore (x : String × ℚ × ℚ × ℚ × ℚ) :
    List (String × ℚ × ℚ × ℚ × ℚ) → List (String × ℚ × ℚ × ℚ × ℚ)
  | [] => [x]
  | y :: ys => if x.2.1 ≤ y.2.1 then y :: insertByScore x ys else x :: y :: ys

def sortByScoreDesc (l : List (String × ℚ × ℚ × ℚ × ℚ)) : List (String × ℚ × ℚ × ℚ × ℚ) :=
  l.foldl (fun acc x => insertByScore x acc) []

/-- Model of scoring.compute_leverage_index: run the three scorers,
min-max normalize each, combine with the weight map (defaults when none
is supplied; no validation of the weights anywhere), sort descending by
composite score. Each row is (node_id, score, cascade, cross_field,
bottleneck). The error case propagates the cascade ValueError. -/
def compute_leverage_index (g : DiGraph) (weights : Option Weights) :
    Except String (List (String × ℚ × ℚ × ℚ × ℚ)) :=
  let w := weights.getD defaultWeights
  match cascadeDefaults g with
  | .error e => .error e
  | .ok cascade =>
    let cascadeN := normalizeScores cascade
    let crossN := normalizeScores (compute_cross_field_leverage g)
    let bottN := normalizeScores (compute_bottleneck_centrality g)
    let results := g.nodeIds.map (fun nid =>
      let c := lookupQ cascadeN nid
      let cf := lookupQ crossN nid
      let bt := lookupQ bottN nid
      (nid, w.cascade * c + w.cross_field * cf + w.bottleneck * bt, c, cf, bt))
    .ok (sortByScoreDesc results)

/-- Seed loop of dedup.find_duplicate_clusters over node indices. -/
def fdcLoop (sim : Nat → Nat → ℚ) (n : Nat) (threshold : ℚ) :
    List Nat → List Nat → List (List Nat) → List (List Nat)
  | [], _, clusters => clusters
  | i :: rest, visited, clusters =>
    if visited.contains i then fdcLoop sim n threshold rest visited clusters
    else
      let similar := (List.range n).filter (fun j => j != i && decide (threshold ≤ sim i j))
      if similar.isEmpty then fdcLoop sim n threshold rest visited clusters
      else fdcLoop sim n threshold rest (visited ++ (i :: similar)) (clusters ++ [i :: similar])

/-- Model of dedup.find_duplicate_clusters over n nodes, parametrized by
the cosine similarity matrix sim of their embeddings (the embedding
provider is an external collaborator; the code derives sim from it and
then only reads sim). -/
def find_duplicate_clusters (sim : Nat → Nat → ℚ) (n : Nat) (threshold : ℚ) : List (List Nat) :=
  fdcLoop sim n threshold (List.range n) [] []

/-- Python max(nodes, key=confidence): the first member attaining the
maximal confidence. -/
def maxByConfidence (n0 : Node) (rest : List Node) : Node :=
  rest.foldl (fun b n => if b.confidence < n.confidence then n else b) n0

/-- Append the sources whose source_id is not yet seen, extending the
seen list, as the inner loop of simple_merge does. -/
def addSources (acc : Node × List String) (srcs : List SourceRef) : Node × List String :=
  srcs.foldl
    (fun a s =>
      if a.2.contains s.source_id then a
      else ({ a.1 with sources := a.1.sources ++ [s] }, a.2 ++ [s.source_id]))
    acc

/-- Per-member step of simple_merge: skip the member whose id matches
the base, otherwise union its sources by source_id. -/
def mergeStep (base : Node) (a : Node × List String) (node : Node) : Node × List String :=
  if node.node_id == base.node_id then a else addSources a node.sources

/-- Model of dedup.simple_merge; none on the empty cluster models the
ValueError of max() over an empty sequence. -/
def simple_merge : List Node → Option Node
  | [] => none
  | n0 :: rest =>
    let base := maxByConfidence n0 rest
    let acc := (n0 :: rest).foldl (mergeStep base) (base, base.sources.map (·.source_id))
    some { acc.1 with confidence := rest.foldl (fun m n => max m n.confidence) n0.confidence }

/-- Parsed arbitration oracle response: the decision field together with
the canonical title and description read in the MERGE branch. -/
inductive OracleDecision where
  | MERGE (canonical_title canonical_description : String)
  | HIERARCHY
  | DISTINCT
deriving Repr, DecidableEq

/-- Model of dedup.llm_disambiguate_cluster parametrized by the parsed
oracle response. In the HIERARCHY branch the code mutates the parent
object in place (appending every child id to children_ids) but sets
parent_id only on per-child copies that are then discarded, so the
returned list holds the mutated parent followed by the unchanged
children. none models the ValueError of simple_merge on an empty
cluster in the MERGE branch. -/
def llm_disambiguate_cluster (oracle : OracleDecision) (cluster : List Node) :
    Option (String × List Node) :=
  match oracle with
  | .MERGE t d =>
    match simple_merge cluster with
    | none => none
    | some m => some ("MERGE", [{ m with title := t.take 200, description := d }])
  | .HIERARCHY =>
    if 2 ≤ cluster.length then
      match cluster with
      | [] => some ("DISTINCT", cluster)
      | parent :: children =>
        some ("HIERARCHY",
          { parent with children_ids := parent.children_ids ++ children.map (·.node_id) } :: children)
    else some ("DISTINCT", cluster)
  | .DISTINCT => some ("DISTINCT", cluster)

/-- Sources list currently held by the node object at index i: the
mutable store of the per-node sources lists that simple_merge mutates
in place through the shallow model_copy. -/
def storeGet (store : List (List SourceRef)) (i : Nat) : List SourceRef :=
  (store.get? i).getD []

def confAt (nodes : List Node) (i : Nat) : ℚ :=
  ((nodes.get? i).map (·.confidence)).getD 0

/-- Python max over the cluster member objects by confidence, returned
as the index of the first member attaining the maximum; confidence is
assigned only on merged copies, never on the stored nodes, so the
original confidences decide. -/
def baseIndex (nodes : List Node) (i0 : Nat) (rest : List Nat) : Nat :=
  rest.foldl (fun b i => if confAt nodes b < confAt nodes i then i else b) i0

/-- Append the not-yet-seen sources to the growing shared list, as the
inner loop of simple_merge does. -/
def addSourcesSeen (acc : List SourceRef × List String) (srcs : List SourceRef) :
    List SourceRef × List String :=
  srcs.foldl
    (fun a s =>
      if a.2.contains s.source_id then a
      else (a.1 ++ [s], a.2 ++ [s.source_id]))
    acc

/-- One simple_merge call inside dedup_nodes, with the aliasing of
pydantic model_copy made explicit: model_copy is shallow, so the merged
node's sources list IS the base node's own list and the appends mutate
it in place. The store maps each input node index to the current state
of its sources list; the call returns the base index with the merged
confidence, plus the updated store. The merged node's sources must be
read from the final store, because a later merge sharing the same base
keeps appending to the same list object. -/
def mergeClusterStore (nodes : List Node) (store : List (List SourceRef)) :
    List Nat → Option ((Nat × ℚ) × List (List SourceRef))
  | [] => none
  | i0 :: restIdx =>
    let b := baseIndex nodes i0 restIdx
    let baseId := ((nodes.get? b).map (·.node_id)).getD ""
    let init := storeGet store b
    let acc := (i0 :: restIdx).foldl
      (fun a i =>
        if (((nodes.get? i).map (·.node_id)).getD "") == baseId then a
        else addSourcesSeen a (storeGet store i))
      (init, init.map (·.source_id))
    let conf := restIdx.foldl (fun m i => max m (confAt nodes i)) (confAt nodes i0)
    some ((b, conf), store.set b acc.1)

/-- Model of dedup.dedup_nodes on the fast path (use_llm = False),
parametrized by the similarity matrix of the embeddings: non-cluster
nodes pass through in order (they belong to no cluster, so their lists
are never mutated), then one merged node per cluster. The merges thread
the mutable sources store, and every merged node's sources list is read
from the final store: overlapping clusters with a shared base alias one
list, so all their output nodes show its final contents. -/
def dedup_nodes (sim : Nat → Nat → ℚ) (threshold : ℚ) (nodes : List Node) : List Node :=
  if nodes.length < 2 then nodes
  else
    let clusters := find_duplicate_clusters sim nodes.length threshold
    if clusters.isEmpty then nodes
    else
      let clusterIndices := clusters.flatten
      let kept := (nodes.enum.filter (fun p => !(clusterIndices.contains p.1))).map (·.2)
      let r := clusters.foldl
        (fun (acc : List (Nat × ℚ) × List (List SourceRef)) cluster =>
          match mergeClusterStore nodes acc.2 cluster with
          | some (m, store2) => (acc.1 ++ [m], store2)
          | none => acc)
        ([], nodes.map (·.sources))
      kept ++ (r.1.map (fun m =>
        match nodes.get? m.1 with
        | some base => [{ base with sources := storeGet r.2 m.1, confidence := m.2 }]
        | none => [])).flatten

/-- Node with the default record values of models.Node and the given id
and field tags. -/
def mkNode (id : String) (fs : List String) : Node :=
  { node_id := id, type := "open_problem", granularity := "L2", title := id,
    description := "", fields := fs, status := "open", confidence := 7/10,
    sources := [], extraction_method := "llm_extracted", cross_field_ref := false,
    parent_id := none, children_ids := [] }

/-- ENABLES edge with the given endpoints, strength and confidence. -/
def mkEdge (id s t : String) (strength confidence : ℚ) : Edge :=
  { edge_id := id, type := "ENABLES", source_node_id := s, target_node_id := t,
    strength := strength, confidence := confidence, mechanism := "",
    extraction_method := "llm_extracted" }

/-- End-to-end scenario of spec section 8: A and B in domain x, C in
domain y, edges A to B (strength 1, confidence 1) and B to C
(strength 1/2, confidence 4/5). -/
def scenarioGraph : DiGraph :=
  build_graph
    [mkNode "A" ["x.1"], mkNode "B" ["x.1"], mkNode "C" ["y.1"]]
    [mkEdge "e1" "A" "B" 1 1, mkEdge "e2" "B" "C" (1/2) (4/5)]

/-- Similarity matrix with the hub node at index 0: indices 0-1 and 0-2
similar, 1-2 dissimilar (symmetric, unit diagonal). -/
def simHub (i j : Nat) : ℚ :=
  if (i, j) = (0, 1) ∨ (i, j) = (1, 0) ∨ (i, j) = (0, 2) ∨ (i, j) = (2, 0) then 9/10
  else if i = j then 1 else 1/10

/-- The same three embeddings listed with the hub node at index 1:
indices 0-1 and 1-2 similar, 0-2 dissimilar (symmetric, unit diagonal). -/
def simMid (i j : Nat) : ℚ :=
  if (i, j) = (0, 1) ∨ (i, j) = (1, 0) ∨ (i, j) = (1, 2) ∨ (i, j) = (2, 1) then 9/10
  else if i = j then 1 else 1/10

/-- Node with one provenance record, for the dedup scenarios. -/
def nodeWithSource (id : String) (conf : ℚ) (sid : String) : Node :=
  { mkNode id [] with confidence := conf, sources := [⟨"paper", sid, ""⟩] }

def parentNode : Node := mkNode "p" []

def childNode : Node := mkNode "c" []

/-- C1: the claim as stated is false on the code. On the scenario graph
the raw cascade scores are A = 67/50, B = 2/5, C = 0, so the raw order
is not B > A > C (B scores below A), and compute_leverage_index ranks A
first, not B. -/
theorem C1_counterexample :
    ((cascadeDefaults scenarioGraph).toOption = some [("A", 67/50), ("B", 2/5), ("C", 0)] ∧
      ¬ ((67 : ℚ)/50 < 2/5)) ∧
    ((compute_leverage_index scenarioGraph none).toOption.map (fun r => r.map (·.1)) =
        some ["A", "B", "C"] ∧
      ("A" : String) ≠ "B") := by
  decide

/-- C1 amended: on the end-to-end scenario the raw cascade order is
A > B > C with C = 0; cross-field leverage is 2/5 > 0 for A, exactly 2/5
for B and 0 for C; and compute_leverage_index ranks A first (B second,
C third). -/
theorem C1_amended :
    (cascadeDefaults scenarioGraph).toOption = some [("A", 67/50), ("B", 2/5), ("C", 0)] ∧
    ((2 : ℚ)/5 < 67/50 ∧ (0 : ℚ) < 2/5) ∧
    compute_cross_field_leverage scenarioGraph = [("A", 2/5), ("B", 2/5), ("C", 0)] ∧
    (compute_leverage_index scenarioGraph none).toOption.map (fun r => r.map (·.1)) =
      some ["A", "B", "C"] := by
  decide

/-- C2: on the graph with no nodes at all the cascade scorer evaluates
max() over an empty sequence and raises ValueError instead of returning
an empty all-zero map; the other two scorers return the empty map. -/
theorem C2_empty_graph_cascade_error :
    cascadeDefaults ⟨[], []⟩ = Except.error "ValueError: max arg is an empty sequence" ∧
    compute_cross_field_leverage ⟨[], []⟩ = [] ∧
    compute_bottleneck_centrality ⟨[], []⟩ = [] :=
  ⟨rfl, rfl, rfl⟩

/-- C3: the claim as stated is false on the code. A weight map summing to
2 rather than 1 is not rejected anywhere: compute_leverage_index uses it
and returns a ranking whose top composite score is 2. -/
theorem C3_counterexample :
    ((2 : ℚ) + 0 + 0 ≠ 1) ∧
    (compute_leverage_index scenarioGraph (some ⟨2, 0, 0⟩)).toOption =
      some [("A", 2, 1, 1, 0), ("B", 40/67, 20/67, 1, 1), ("C", 0, 0, 0, 0)] := by
  decide

/-- C4: the claim as stated is false on the code. With the node similar
to both others placed second in input order (similarity pattern simMid,
threshold 85/100 satisfied by pairs 0-1 and 1-2 but not 0-2), the three
nodes land in two overlapping clusters, not one. -/
theorem C4_counterexample :
    ((85 : ℚ)/100 ≤ simMid 0 1 ∧ (85 : ℚ)/100 ≤ simMid 1 2 ∧ simMid 0 2 < 85/100) ∧
    find_duplicate_clusters simMid 3 (85/100) = [[0, 1], [2, 1]] ∧
    (find_duplicate_clusters simMid 3 (85/100)).length = 2 := by
  decide

/-- C6: on a two-node cluster the HIERARCHY branch returns both nodes
with the parent listing the child id in children_ids, but the returned
child still has parent_id = none: the code sets parent_id only on a
copy that is then discarded. -/
theorem C6_hierarchy_parent_link_lost :
    (llm_disambiguate_cluster .HIERARCHY [parentNode, childNode]).map
        (fun r => (r.1, r.2.map (fun n => (n.node_id, n.parent_id, n.children_ids)))) =
      some ("HIERARCHY", [("p", none, ["c"]), ("c", none, [])]) := by
  decide

/-- C9: with similarity pattern simMid, index 1 appears in both returned
clusters, and dedup_nodes merges the content of node 1 (source id sA)
into two distinct output nodes: it is the base of both overlapping
merges, whose shallow-copied nodes share its mutated sources list, so
both outputs carry all three source ids (and node 1's id in particular). -/
theorem C9_overlapping_clusters :
    find_duplicate_clusters simMid 3 (85/100) = [[0, 1], [2, 1]] ∧
    ((1 : Nat) ∈ [0, 1] ∧ (1 : Nat) ∈ [2, 1]) ∧
    (dedup_nodes simMid (85/100)
        [nodeWithSource "B" (8/10) "sB", nodeWithSource "A" (9/10) "sA",
         nodeWithSource "C" (7/10) "sC"]).map (fun n => n.sources.map (·.source_id)) =
      [["sA", "sB", "sC"], ["sA", "sB", "sC"]] ∧
    (dedup_nodes simMid (85/100)
        [nodeWithSource "B" (8/10) "sB", nodeWithSource "A" (9/10) "sA",
         nodeWithSource "C" (7/10) "sC"]).length = 2 ∧
    (∀ out ∈ dedup_nodes simMid (85/100)
        [nodeWithSource "B" (8/10) "sB", nodeWithSource "A" (9/10) "sA",
         nodeWithSource "C" (7/10) "sC"], "sA" ∈ out.sources.map (·.source_id)) := by
  decide

/-- Helper: the cascade iteration never reaches the empty-sequence error
when the node list is nonempty. -/
theorem cascadeIter_ok (sub : DiGraph) (x : String) (xs : List String) (d t : ℚ) :
    ∀ (fuel : Nat) (imp sc : List (String × ℚ)),
      ∃ l, cascadeIter sub (x :: xs) d t fuel imp sc = Except.ok l := by
  intro fuel
  induction fuel with
  | zero => exact fun imp sc => ⟨sc, rfl⟩
  | succ k ih =>
    intro imp sc
    simp only [cascadeIter, List.map_cons, listMaxQ]
    split
    · exact ⟨_, rfl⟩
    · exact ih _ _

/-- C4 amended: the chaining property holds when the node similar to both
others is first in input order: with sim(0,1) and sim(0,2) at or above
the threshold and sim(1,2) below it, all three indices land in the one
cluster seeded at 0. In other input orders the three nodes split into
two overlapping clusters. -/
theorem C4_amended (sim : Nat → Nat → ℚ) (t : ℚ)
    (h1 : t ≤ sim 0 1) (h2 : t ≤ sim 0 2) (_h3 : sim 1 2 < t) :
    find_duplicate_clusters sim 3 t = [[0, 1, 2]] := by
  have e1 : decide (t ≤ sim 0 1) = true := decide_eq_true h1
  have e2 : decide (t ≤ sim 0 2) = true := decide_eq_true h2
  simp [find_duplicate_clusters, fdcLoop, List.range_succ, e1, e2]

/-- Witness for C4 amended at the concrete matrix simHub and the default
threshold. -/
theorem C4_amended_witness :
    ((85 : ℚ)/100 ≤ simHub 0 1 ∧ (85 : ℚ)/100 ≤ simHub 0 2 ∧ simHub 1 2 < 85/100) ∧
    find_duplicate_clusters simHub 3 (85/100) = [[0, 1, 2]] :=
  ⟨⟨by decide, by decide, by decide⟩,
    C4_amended simHub (85/100) (by decide) (by decide) (by decide)⟩

/-- C3 amended: the default metric weights sum to 1, but no validation of
supplied weights exists anywhere: compute_leverage_index accepts every
weight map and returns a ranking whenever the graph has at least one
node. -/
theorem C3_amended (w : Weights) (g : DiGraph) (h : g.nodes ≠ []) :
    (defaultWeights.cascade + defaultWeights.cross_field + defaultWeights.bottleneck = 1) ∧
    ∃ r, compute_leverage_index g (some w) = Except.ok r := by
  refine ⟨by decide, ?_⟩
  obtain ⟨p, ps, hg⟩ : ∃ p ps, g.nodes = p :: ps := by
    cases hn : g.nodes with
    | nil => exact absurd hn h
    | cons p ps => exact ⟨p, ps, rfl⟩
  have hids : (enablesSubgraph g).nodeIds = p.1 :: ps.map (·.1) := by
    simp [enablesSubgraph, DiGraph.nodeIds, hg]
  obtain ⟨l, hl⟩ := cascadeIter_ok (enablesSubgraph g) p.1 (ps.map (·.1)) (85/100) (1/1000000)
    100 ((p.1 :: ps.map (·.1)).map (fun n => (n, 1)))
    ((p.1 :: ps.map (·.1)).map (fun n => (n, 0)))
  have hc : cascadeDefaults g = Except.ok l := by
    simp only [cascadeDefaults, compute_cascade_scores]
    rw [hids]
    exact hl
  simp only [compute_leverage_index, hc]
  exact ⟨_, rfl⟩

/-- Witness for C3 amended: the scenario graph is nonempty and the weight
map summing to 2 is accepted. -/
theorem C3_amended_witness :
    scenarioGraph.nodes ≠ [] ∧
    ((defaultWeights.cascade + defaultWeights.cross_field + defaultWeights.bottleneck = 1) ∧
      ∃ r, compute_leverage_index scenarioGraph (some ⟨2, 0, 0⟩) = Except.ok r) :=
  ⟨by decide, C3_amended ⟨2, 0, 0⟩ scenarioGraph (by decide)⟩

/-- Helper: addEdge never changes the node list. -/
theorem addEdge_nodes (g : DiGraph) (u v : String) (a : EdgeAttrs) :
    (addEdge g u v a).nodes = g.nodes := by
  unfold addEdge
  split <;> rfl

/-- Helper: the checked edge step never changes the node list. -/
theorem addEdgeChecked_nodes (g : DiGraph) (e : Edge) :
    (addEdgeChecked g e).nodes = g.nodes := by
  unfold addEdgeChecked
  split
  · rfl
  · split
    · rfl
    · exact addEdge_nodes g e.source_node_id e.target_node_id (edgeAttrsOf e)

theorem addEdgeChecked_nodeIds (g : DiGraph) (e : Edge) :
    (addEdgeChecked g e).nodeIds = g.nodeIds := by
  simp [DiGraph.nodeIds, addEdgeChecked_nodes]

/-- Helper: one checked edge step preserves the referential-integrity
invariant and grows the edge list by at most one. -/
theorem addEdgeChecked_invariant (g : DiGraph) (e : Edge)
    (hg : ∀ e' ∈ g.edges, (e'.1 ∈ g.nodeIds ∧ e'.2.1 ∈ g.nodeIds) ∧ e'.1 ≠ e'.2.1) :
    (∀ e' ∈ (addEdgeChecked g e).edges,
        (e'.1 ∈ g.nodeIds ∧ e'.2.1 ∈ g.nodeIds) ∧ e'.1 ≠ e'.2.1) ∧
    (addEdgeChecked g e).edges.length ≤ g.edges.length + 1 := by
  unfold addEdgeChecked
  split
  · exact ⟨hg, Nat.le_succ _⟩
  next hmem =>
    split
    · exact ⟨hg, Nat.le_succ _⟩
    next hloop =>
      simp only [Bool.or_eq_true, Bool.not_eq_true', Bool.not_eq_true] at hmem
      push_neg at hmem
      have hsrc : e.source_node_id ∈ g.nodeIds := by
        have := hmem.1
        simp only [Bool.not_eq_false] at this
        simpa using this
      have htgt : e.target_node_id ∈ g.nodeIds := by
        have := hmem.2
        simp only [Bool.not_eq_false] at this
        simpa using this
      have hne : e.source_node_id ≠ e.target_node_id := by
        simpa using hloop
      constructor
      · intro e' he'
        unfold addEdge at he'
        split at he'
        · simp only [List.mem_map] at he'
          obtain ⟨x, hx, hfx⟩ := he'
          by_cases hp : (x.1 == e.source_node_id && x.2.1 == e.target_node_id) = true
          · rw [if_pos hp] at hfx
            rw [← hfx]
            exact ⟨⟨hsrc, htgt⟩, hne⟩
          · rw [if_neg hp] at hfx
            rw [← hfx]
            exact hg x hx
        · rcases List.mem_append.mp he' with hx | hx
          · exact hg e' hx
          · rw [List.mem_singleton.mp hx]
            exact ⟨⟨hsrc, htgt⟩, hne⟩
      · unfold addEdge
        split
        · simp
        · simp

theorem addNode_edges (g : DiGraph) (id : String) (a : NodeAttrs) :
    (addNode g id a).edges = g.edges := by
  unfold addNode
  split <;> rfl

/-- Helper: the node phase of build_graph produces no edges. -/
theorem nodesGraph_edges (nodes : List Node) : (nodesGraph nodes).edges = [] := by
  unfold nodesGraph
  suffices h : ∀ g : DiGraph, g.edges = [] →
      (nodes.foldl (fun g n => addNode g n.node_id (nodeAttrsOf n)) g).edges = [] from
    h ⟨[], []⟩ rfl
  induction nodes with
  | nil => exact fun g hg => hg
  | cons n ns ih =>
    intro g hg
    simp only [List.foldl_cons]
    exact ih _ (by rw [addNode_edges]; exact hg)

theorem foldl_addEdgeChecked_nodeIds (es : List Edge) :
    ∀ g : DiGraph, (es.foldl addEdgeChecked g).nodeIds = g.nodeIds := by
  induction es with
  | nil => exact fun g => rfl
  | cons e es ih =>
    intro g
    simp only [List.foldl_cons]
    rw [ih, addEdgeChecked_nodeIds]

/-- Helper: folding the checked edge step over any edge list preserves
the referential-integrity invariant and adds at most one edge per input
edge. -/
theorem foldl_addEdgeChecked_invariant (es : List Edge) :
    ∀ g : DiGraph,
      (∀ e' ∈ g.edges, (e'.1 ∈ g.nodeIds ∧ e'.2.1 ∈ g.nodeIds) ∧ e'.1 ≠ e'.2.1) →
      (∀ e' ∈ (es.foldl addEdgeChecked g).edges,
          (e'.1 ∈ g.nodeIds ∧ e'.2.1 ∈ g.nodeIds) ∧ e'.1 ≠ e'.2.1) ∧
        (es.foldl addEdgeChecked g).edges.length ≤ g.edges.length + es.length := by
  induction es with
  | nil => exact fun g hg => ⟨hg, by simp⟩
  | cons e es ih =>
    intro g hg
    obtain ⟨h1, h2⟩ := addEdgeChecked_invariant g e hg
    have h1' : ∀ e' ∈ (addEdgeChecked g e).edges,
        (e'.1 ∈ (addEdgeChecked g e).nodeIds ∧ e'.2.1 ∈ (addEdgeChecked g e).nodeIds) ∧
        e'.1 ≠ e'.2.1 := by
      rw [addEdgeChecked_nodeIds]
      exact h1
    obtain ⟨ih1, ih2⟩ := ih (addEdgeChecked g e) h1'
    rw [addEdgeChecked_nodeIds] at ih1
    refine ⟨?_, ?_⟩
    · simpa using ih1
    · simp only [List.foldl_cons, List.length_cons]
      omega

/-- C7: every constructed graph has referential integrity: both endpoints
of every surviving edge are node ids of the graph, the edge count never
exceeds the input edge count, and no self-loop survives; invalid edges
are dropped without the build failing. -/
theorem C7_build_graph_integrity (nodes : List Node) (edges : List Edge) :
    (∀ e ∈ (build_graph nodes edges).edges,
        e.1 ∈ (build_graph nodes edges).nodeIds ∧ e.2.1 ∈ (build_graph nodes edges).nodeIds) ∧
    (build_graph nodes edges).edges.length ≤ edges.length ∧
    (∀ e ∈ (build_graph nodes edges).edges, e.1 ≠ e.2.1) := by
  have h0 : ∀ e' ∈ (nodesGraph nodes).edges,
      (e'.1 ∈ (nodesGraph nodes).nodeIds ∧ e'.2.1 ∈ (nodesGraph nodes).nodeIds) ∧
      e'.1 ≠ e'.2.1 := by
    rw [nodesGraph_edges]
    intro e' he'
    exact absurd he' (List.not_mem_nil e')
  obtain ⟨h1, h2⟩ := foldl_addEdgeChecked_invariant edges (nodesGraph nodes) h0
  have hids : (build_graph nodes edges).nodeIds = (nodesGraph nodes).nodeIds :=
    foldl_addEdgeChecked_nodeIds edges (nodesGraph nodes)
  refine ⟨?_, ?_, ?_⟩
  · intro e he
    rw [hids]
    exact (h1 e he).1
  · have : (nodesGraph nodes).edges.length = 0 := by rw [nodesGraph_edges]; rfl
    calc (build_graph nodes edges).edges.length
        ≤ (nodesGraph nodes).edges.length + edges.length := h2
      _ = edges.length := by omega
  · exact fun e he => (h1 e he).2

/-- Helper: adding an edge with a pair other than (s, t) leaves the
(s, t)-filtered edge list unchanged. -/
theorem addEdge_filter_other (g : DiGraph) (u v s t : String) (a : EdgeAttrs)
    (h : ¬(u = s ∧ v = t)) :
    (addEdge g u v a).edges.filter (fun e => e.1 == s && e.2.1 == t) =
      g.edges.filter (fun e => e.1 == s && e.2.1 == t) := by
  have hba : ((u == s && v == t) : Bool) = false := by
    simp only [Bool.and_eq_false_iff, beq_eq_false_iff_ne, ne_eq]
    by_cases hu : u = s
    · exact Or.inr (fun hv => h ⟨hu, hv⟩)
    · exact Or.inl hu
  unfold addEdge
  split
  · rw [List.filter_map]
    have h1 : g.edges.filter ((fun e => e.1 == s && e.2.1 == t) ∘
        (fun e => if e.1 == u && e.2.1 == v then (u, v, a) else e)) =
        g.edges.filter (fun e => e.1 == s && e.2.1 == t) := by
      apply List.filter_congr
      intro x _
      by_cases hp : (x.1 == u && x.2.1 == v) = true
      · obtain ⟨hxu, hxv⟩ := Bool.and_eq_true_iff.mp hp
        have hxu' : x.1 = u := by simpa using hxu
        have hxv' : x.2.1 = v := by simpa using hxv
        simp only [Function.comp_apply]
        rw [if_pos hp, hxu', hxv']
      · simp only [Function.comp_apply]
        rw [if_neg hp]
    rw [h1]
    have h2 : ∀ x ∈ g.edges.filter (fun e => e.1 == s && e.2.1 == t),
        (fun e => if e.1 == u && e.2.1 == v then (u, v, a) else e) x = x := by
      intro x hx
      have hpx := List.of_mem_filter hx
      obtain ⟨hxs, hxt⟩ := Bool.and_eq_true_iff.mp hpx
      have hxs' : x.1 = s := by simpa using hxs
      have hxt' : x.2.1 = t := by simpa using hxt
      have : (x.1 == u && x.2.1 == v) = false := by
        simp only [Bool.and_eq_false_iff, beq_eq_false_iff_ne, ne_eq, hxs', hxt']
        by_cases hu : s = u
        · refine Or.inr (fun hv => h ⟨hu.symm, hv.symm⟩)
        · exact Or.inl hu
      simp [this]
    exact (List.map_congr_left h2).trans (List.map_id _)
  · rw [List.filter_append]
    have : [(u, v, a)].filter (fun e => e.1 == s && e.2.1 == t) = [] := by
      simp [hba]
    rw [this, List.append_nil]

/-- Helper: adding an (s, t) edge either rewrites every (s, t)-filtered
entry to the new attributes (pair already present) or appends it. -/
theorem addEdge_filter_same (g : DiGraph) (s t : String) (a : EdgeAttrs) :
    (addEdge g s t a).edges.filter (fun e => e.1 == s && e.2.1 == t) =
      (if g.edges.any (fun e => e.1 == s && e.2.1 == t) then
        (g.edges.filter (fun e => e.1 == s && e.2.1 == t)).map (fun _ => (s, t, a))
      else g.edges.filter (fun e => e.1 == s && e.2.1 == t) ++ [(s, t, a)]) := by
  unfold addEdge
  split
  next hany =>
    rw [List.filter_map]
    have h1 : g.edges.filter ((fun e => e.1 == s && e.2.1 == t) ∘
        (fun e => if e.1 == s && e.2.1 == t then (s, t, a) else e)) =
        g.edges.filter (fun e => e.1 == s && e.2.1 == t) := by
      apply List.filter_congr
      intro x _
      by_cases hp : (x.1 == s && x.2.1 == t) = true
      · obtain ⟨hxs, hxt⟩ := Bool.and_eq_true_iff.mp hp
        have hxs' : x.1 = s := by simpa using hxs
        have hxt' : x.2.1 = t := by simpa using hxt
        simp only [Function.comp_apply]
        rw [if_pos hp, hxs', hxt']
      · simp only [Function.comp_apply]
        rw [if_neg hp]
    rw [h1]
    apply List.map_congr_left
    intro x hx
    have hpx := List.of_mem_filter hx
    exact if_pos hpx
  next hany =>
    rw [List.filter_append]
    have : [(s, t, a)].filter (fun e => e.1 == s && e.2.1 == t) = [(s, t, a)] := by simp
    rw [this]

/-- Helper: the checked edge step, written through validEdge of any graph
with the same node ids. -/
theorem addEdgeChecked_eq (g g0 : DiGraph) (e : Edge) (hids : g.nodeIds = g0.nodeIds) :
    addEdgeChecked g e =
      (if validEdge g0 e then addEdge g e.source_node_id e.target_node_id (edgeAttrsOf e)
       else g) := by
  unfold addEdgeChecked validEdge
  rw [hids]
  cases hc1 : g0.nodeIds.contains e.source_node_id <;>
    cases hc2 : g0.nodeIds.contains e.target_node_id <;>
    cases hc3 : e.source_node_id == e.target_node_id <;>
    simp [hc1, hc2, hc3, bne]

/-- C10: the built graph keeps at most one edge per ordered (source,
target) pair: its (s, t)-filtered edge list is exactly the attribute set
of the last valid input edge with that pair, or empty when none exists. -/
theorem C10_last_edge_wins (nodes : List Node) (edges : List Edge) (s t : String) :
    (build_graph nodes edges).edges.filter (fun e => e.1 == s && e.2.1 == t) =
      ((edges.filter (fun e => validEdge (nodesGraph nodes) e && e.source_node_id == s &&
          e.target_node_id == t)).getLast?.map (fun e => (s, t, edgeAttrsOf e))).toList := by
  induction edges using List.reverseRecOn with
  | nil =>
    have : (build_graph nodes []).edges = [] := nodesGraph_edges nodes
    simp [this]
  | append_singleton es e ih =>
    have hids : (build_graph nodes es).nodeIds = (nodesGraph nodes).nodeIds :=
      foldl_addEdgeChecked_nodeIds es (nodesGraph nodes)
    have hbg : build_graph nodes (es ++ [e]) = addEdgeChecked (build_graph nodes es) e := by
      unfold build_graph
      rw [List.foldl_append]
      rfl
    rw [hbg, addEdgeChecked_eq _ _ _ hids, List.filter_append]
    by_cases hv : validEdge (nodesGraph nodes) e = true
    · rw [if_pos hv]
      by_cases hpair : (e.source_node_id == s && e.target_node_id == t) = true
      · obtain ⟨hs, ht⟩ := Bool.and_eq_true_iff.mp hpair
        have hs' : e.source_node_id = s := by simpa using hs
        have ht' : e.target_node_id = t := by simpa using ht
        have hfe : [e].filter (fun e' => validEdge (nodesGraph nodes) e' &&
            e'.source_node_id == s && e'.target_node_id == t) = [e] := by
          simp [hv, hs', ht']
        rw [hfe, List.getLast?_concat, hs', ht', addEdge_filter_same]
        split
        next hany =>
          obtain ⟨x, hxmem, hxp⟩ := List.any_eq_true.mp hany
          have hne : (build_graph nodes es).edges.filter
              (fun e' => e'.1 == s && e'.2.1 == t) ≠ [] := by
            intro hnil
            exact absurd hxp (by simpa using (List.filter_eq_nil_iff.mp hnil) x hxmem)
          rw [ih] at hne ⊢
          cases hlast : (es.filter (fun e' => validEdge (nodesGraph nodes) e' &&
              e'.source_node_id == s && e'.target_node_id == t)).getLast? with
          | none => rw [hlast] at hne; simp at hne
          | some y => rfl
        next hany =>
          have hany' : (build_graph nodes es).edges.any
              (fun e' => e'.1 == s && e'.2.1 == t) = false := Bool.eq_false_iff.mpr hany
          have hnil : (build_graph nodes es).edges.filter
              (fun e' => e'.1 == s && e'.2.1 == t) = [] := by
            rw [List.filter_eq_nil_iff]
            exact List.any_eq_false.mp hany'
          rw [hnil]
          rfl
      · have hnp : ¬(e.source_node_id = s ∧ e.target_node_id = t) := by
          intro ⟨hs, ht⟩
          exact hpair (by simp [hs, ht])
        rw [addEdge_filter_other _ _ _ _ _ _ hnp]
        have hfe : [e].filter (fun e' => validEdge (nodesGraph nodes) e' &&
            e'.source_node_id == s && e'.target_node_id == t) = [] := by
          have : (validEdge (nodesGraph nodes) e && e.source_node_id == s &&
              e.target_node_id == t) = false := by
            cases hq : (e.source_node_id == s) with
            | false => simp [hq]
            | true =>
              cases hr : (e.target_node_id == t) with
              | false => simp [hr]
              | true => exact absurd (by simp [hq, hr]) hpair
          simp [this]
        rw [hfe, List.append_nil]
        exact ih
    · rw [if_neg hv]
      have hfe : [e].filter (fun e' => validEdge (nodesGraph nodes) e' &&
          e'.source_node_id == s && e'.target_node_id == t) = [] := by
        simp [Bool.not_eq_true] at hv
        simp [hv]
      rw [hfe, List.append_nil]
      exact ih

theorem foldl_min_le_start (l : List ℚ) : ∀ a : ℚ, l.foldl min a ≤ a := by
  induction l with
  | nil => exact fun a => le_refl a
  | cons x xs ih => exact fun a => le_trans (ih (min a x)) (min_le_left a x)

theorem foldl_min_le_mem (l : List ℚ) : ∀ (a x : ℚ), x ∈ l → l.foldl min a ≤ x := by
  induction l with
  | nil => intro a x hx; cases hx
  | cons y ys ih =>
    intro a x hx
    rcases List.mem_cons.mp hx with rfl | hx
    · exact le_trans (foldl_min_le_start ys (min a x)) (min_le_right a x)
    · exact ih (min a y) x hx

theorem foldl_min_attained (l : List ℚ) : ∀ a : ℚ, l.foldl min a = a ∨ l.foldl min a ∈ l := by
  induction l with
  | nil => exact fun a => Or.inl rfl
  | cons x xs ih =>
    intro a
    rcases ih (min a x) with h | h
    · rcases min_choice a x with hm | hm
      · exact Or.inl (h.trans hm)
      · refine Or.inr ?_
        simp only [List.foldl_cons]
        rw [h, hm]
        exact List.mem_cons_self x xs
    · exact Or.inr (List.mem_cons_of_mem x h)

theorem foldl_max_ge_start (l : List ℚ) : ∀ a : ℚ, a ≤ l.foldl max a := by
  induction l with
  | nil => exact fun a => le_refl a
  | cons x xs ih => exact fun a => le_trans (le_max_left a x) (ih (max a x))

theorem foldl_max_ge_mem (l : List ℚ) : ∀ (a x : ℚ), x ∈ l → x ≤ l.foldl max a := by
  induction l with
  | nil => intro a x hx; cases hx
  | cons y ys ih =>
    intro a x hx
    rcases List.mem_cons.mp hx with rfl | hx
    · exact le_trans (le_max_right a x) (foldl_max_ge_start ys (max a x))
    · exact ih (max a y) x hx

theorem foldl_max_attained (l : List ℚ) : ∀ a : ℚ, l.foldl max a = a ∨ l.foldl max a ∈ l := by
  induction l with
  | nil => exact fun a => Or.inl rfl
  | cons x xs ih =>
    intro a
    rcases ih (max a x) with h | h
    · rcases max_choice a x with hm | hm
      · exact Or.inl (h.trans hm)
      · refine Or.inr ?_
        simp only [List.foldl_cons]
        rw [h, hm]
        exact List.mem_cons_self x xs
    · exact Or.inr (List.mem_cons_of_mem x h)

/-- C8: on every nonempty score map, min-max normalization keeps every
value in the unit interval; when all input values are equal every output
is 0 (never a division by zero), and otherwise the value 0 and the value
1 are both attained, so the output minimum is exactly 0 and the maximum
exactly 1. -/
theorem C8_normalize (scores : List (String × ℚ)) (h : scores ≠ []) :
    (∀ r ∈ normalizeScores scores, (0 : ℚ) ≤ r.2 ∧ r.2 ≤ 1) ∧
    ((∀ r ∈ scores, ∀ q ∈ scores, r.2 = q.2) → ∀ r ∈ normalizeScores scores, r.2 = 0) ∧
    ((¬ ∀ r ∈ scores, ∀ q ∈ scores, r.2 = q.2) →
      (∃ r ∈ normalizeScores scores, r.2 = 0) ∧ ∃ r ∈ normalizeScores scores, r.2 = 1) := by
  obtain ⟨p, rest, rfl⟩ : ∃ p rest, scores = p :: rest := by
    cases scores with
    | nil => exact absurd rfl h
    | cons p rest => exact ⟨p, rest, rfl⟩
  have hfmin : rest.foldl (fun m q => min m q.2) p.2 = (rest.map (·.2)).foldl min p.2 :=
    (List.foldl_map _ _ _ _).symm
  have hfmax : rest.foldl (fun m q => max m q.2) p.2 = (rest.map (·.2)).foldl max p.2 :=
    (List.foldl_map _ _ _ _).symm
  have hlo_le : ∀ q ∈ p :: rest, rest.foldl (fun m r => min m r.2) p.2 ≤ q.2 := by
    intro q hq
    rcases List.mem_cons.mp hq with rfl | hq
    · rw [hfmin]
      exact foldl_min_le_start _ _
    · rw [hfmin]
      exact foldl_min_le_mem _ _ _ (List.mem_map_of_mem _ hq)
  have hhi_ge : ∀ q ∈ p :: rest, q.2 ≤ rest.foldl (fun m r => max m r.2) p.2 := by
    intro q hq
    rcases List.mem_cons.mp hq with rfl | hq
    · rw [hfmax]
      exact foldl_max_ge_start _ _
    · rw [hfmax]
      exact foldl_max_ge_mem _ _ _ (List.mem_map_of_mem _ hq)
  have hlo_mem : ∃ q ∈ p :: rest, q.2 = rest.foldl (fun m r => min m r.2) p.2 := by
    rw [hfmin]
    rcases foldl_min_attained (rest.map (·.2)) p.2 with h1 | h1
    · exact ⟨p, List.mem_cons_self p rest, h1.symm⟩
    · obtain ⟨q, hq, hq2⟩ := List.mem_map.mp h1
      exact ⟨q, List.mem_cons_of_mem p hq, hq2⟩
  have hhi_mem : ∃ q ∈ p :: rest, q.2 = rest.foldl (fun m r => max m r.2) p.2 := by
    rw [hfmax]
    rcases foldl_max_attained (rest.map (·.2)) p.2 with h1 | h1
    · exact ⟨p, List.mem_cons_self p rest, h1.symm⟩
    · obtain ⟨q, hq, hq2⟩ := List.mem_map.mp h1
      exact ⟨q, List.mem_cons_of_mem p hq, hq2⟩
  simp only [normalizeScores]
  by_cases heq : rest.foldl (fun m r => max m r.2) p.2 = rest.foldl (fun m r => min m r.2) p.2
  · rw [if_pos heq]
    refine ⟨?_, ?_, ?_⟩
    · intro r hr
      obtain ⟨q, _, rfl⟩ := List.mem_map.mp hr
      exact ⟨le_refl 0, by norm_num⟩
    · intro _ r hr
      obtain ⟨q, _, rfl⟩ := List.mem_map.mp hr
      rfl
    · intro hne
      exfalso
      apply hne
      intro r hr q hq
      have hr2 : r.2 = rest.foldl (fun m r => min m r.2) p.2 :=
        le_antisymm (heq ▸ hhi_ge r hr) (hlo_le r hr)
      have hq2 : q.2 = rest.foldl (fun m r => min m r.2) p.2 :=
        le_antisymm (heq ▸ hhi_ge q hq) (hlo_le q hq)
      rw [hr2, hq2]
  · rw [if_neg heq]
    have hlole : rest.foldl (fun m r => min m r.2) p.2 ≤ rest.foldl (fun m r => max m r.2) p.2 :=
      le_trans (hlo_le p (List.mem_cons_self p rest)) (hhi_ge p (List.mem_cons_self p rest))
    have hlt : rest.foldl (fun m r => min m r.2) p.2 < rest.foldl (fun m r => max m r.2) p.2 :=
      lt_of_le_of_ne hlole (fun hc => heq hc.symm)
    have hpos : (0 : ℚ) < rest.foldl (fun m r => max m r.2) p.2 -
        rest.foldl (fun m r => min m r.2) p.2 := sub_pos.mpr hlt
    refine ⟨?_, ?_, ?_⟩
    · intro r hr
      obtain ⟨q, hq, rfl⟩ := List.mem_map.mp hr
      constructor
      · exact div_nonneg (sub_nonneg.mpr (hlo_le q hq)) (le_of_lt hpos)
      · rw [div_le_one hpos]
        exact sub_le_sub_right (hhi_ge q hq) _
    · intro hall
      exfalso
      apply heq
      obtain ⟨q1, hq1, hq1e⟩ := hhi_mem
      obtain ⟨q2, hq2, hq2e⟩ := hlo_mem
      rw [← hq1e, ← hq2e]
      exact hall q1 hq1 q2 hq2
    · intro _
      constructor
      · obtain ⟨q, hq, hqe⟩ := hlo_mem
        refine ⟨_, List.mem_map_of_mem _ hq, ?_⟩
        show (q.2 - _) / _ = 0
        rw [hqe, sub_self, zero_div]
      · obtain ⟨q, hq, hqe⟩ := hhi_mem
        refine ⟨_, List.mem_map_of_mem _ hq, ?_⟩
        show (q.2 - _) / _ = 1
        rw [hqe]
        exact div_self (ne_of_gt hpos)

/-- Witness for C8 at the two-entry map with values 3 and 5. -/
theorem C8_normalize_witness :
    ([("a", (3 : ℚ)), ("b", 5)] ≠ []) ∧
    ((∀ r ∈ normalizeScores [("a", (3 : ℚ)), ("b", 5)], (0 : ℚ) ≤ r.2 ∧ r.2 ≤ 1) ∧
    ((∀ r ∈ [("a", (3 : ℚ)), ("b", 5)], ∀ q ∈ [("a", (3 : ℚ)), ("b", 5)], r.2 = q.2) →
      ∀ r ∈ normalizeScores [("a", (3 : ℚ)), ("b", 5)], r.2 = 0) ∧
    ((¬ ∀ r ∈ [("a", (3 : ℚ)), ("b", 5)], ∀ q ∈ [("a", (3 : ℚ)), ("b", 5)], r.2 = q.2) →
      (∃ r ∈ normalizeScores [("a", (3 : ℚ)), ("b", 5)], r.2 = 0) ∧
        ∃ r ∈ normalizeScores [("a", (3 : ℚ)), ("b", 5)], r.2 = 1)) :=
  ⟨by decide, C8_normalize [("a", (3 : ℚ)), ("b", 5)] (by decide)⟩

/-- Helper: addSources keeps the seen list and the merged sources ids in
sync, never loses a seen id, and records every processed source id. -/
theorem addSources_spec (srcs : List SourceRef) :
    ∀ acc : Node × List String,
      (∀ x, x ∈ acc.2 ↔ x ∈ acc.1.sources.map (·.source_id)) →
      (∀ x, x ∈ (addSources acc srcs).2 ↔
          x ∈ (addSources acc srcs).1.sources.map (·.source_id)) ∧
      (∀ x ∈ acc.2, x ∈ (addSources acc srcs).2) ∧
      (∀ s ∈ srcs, s.source_id ∈ (addSources acc srcs).2) := by
  induction srcs with
  | nil =>
    intro acc hP
    exact ⟨hP, fun x hx => hx, fun s hs => absurd hs (List.not_mem_nil s)⟩
  | cons s ss ih =>
    intro acc hP
    by_cases hc : acc.2.contains s.source_id = true
    · have hstep : addSources acc (s :: ss) = addSources acc ss := by
        unfold addSources
        simp only [List.foldl_cons, if_pos hc]
      rw [hstep]
      obtain ⟨ih1, ih2, ih3⟩ := ih acc hP
      refine ⟨ih1, ih2, ?_⟩
      intro s' hs'
      rcases List.mem_cons.mp hs' with rfl | hs'
      · exact ih2 _ (by simpa using hc)
      · exact ih3 s' hs'
    · have hstep : addSources acc (s :: ss) =
          addSources ({ acc.1 with sources := acc.1.sources ++ [s] }, acc.2 ++ [s.source_id]) ss := by
        unfold addSources
        simp only [List.foldl_cons, if_neg hc]
      have hP' : ∀ x, x ∈ acc.2 ++ [s.source_id] ↔
          x ∈ ({ acc.1 with sources := acc.1.sources ++ [s] } : Node).sources.map (·.source_id) := by
        intro x
        simp only [List.mem_append, List.map_append, List.map_cons, List.map_nil]
        exact or_congr (hP x) Iff.rfl
      obtain ⟨ih1, ih2, ih3⟩ :=
        ih ({ acc.1 with sources := acc.1.sources ++ [s] }, acc.2 ++ [s.source_id]) hP'
      rw [hstep]
      refine ⟨ih1, ?_, ?_⟩
      · intro x hx
        exact ih2 x (List.mem_append_left _ hx)
      · intro s' hs'
        rcases List.mem_cons.mp hs' with rfl | hs'
        · exact ih2 _ (List.mem_append_right _ (List.mem_singleton.mpr rfl))
        · exact ih3 s' hs'

/-- Helper: the simple_merge fold keeps seen and merged ids in sync,
never loses a seen id, and records every source id of every member whose
id differs from the base. -/
theorem mergeFold_spec (base : Node) (cluster : List Node) :
    ∀ acc : Node × List String,
      (∀ x, x ∈ acc.2 ↔ x ∈ acc.1.sources.map (·.source_id)) →
      (∀ x, x ∈ (cluster.foldl (mergeStep base) acc).2 ↔
          x ∈ (cluster.foldl (mergeStep base) acc).1.sources.map (·.source_id)) ∧
      (∀ x ∈ acc.2, x ∈ (cluster.foldl (mergeStep base) acc).2) ∧
      (∀ node ∈ cluster, node.node_id ≠ base.node_id →
        ∀ s ∈ node.sources, s.source_id ∈ (cluster.foldl (mergeStep base) acc).2) := by
  induction cluster with
  | nil =>
    intro acc hP
    exact ⟨hP, fun x hx => hx, fun node hn => absurd hn (List.not_mem_nil node)⟩
  | cons n ns ih =>
    intro acc hP
    simp only [List.foldl_cons]
    by_cases hid : (n.node_id == base.node_id) = true
    · have hstep : mergeStep base acc n = acc := by
        unfold mergeStep
        rw [if_pos hid]
      rw [hstep]
      obtain ⟨ih1, ih2, ih3⟩ := ih acc hP
      refine ⟨ih1, ih2, ?_⟩
      intro node hn hne s hs
      rcases List.mem_cons.mp hn with rfl | hn
      · exact absurd (by simpa using hid) hne
      · exact ih3 node hn hne s hs
    · have hstep : mergeStep base acc n = addSources acc n.sources := by
        unfold mergeStep
        rw [if_neg hid]
      rw [hstep]
      obtain ⟨a1, a2, a3⟩ := addSources_spec n.sources acc hP
      obtain ⟨ih1, ih2, ih3⟩ := ih (addSources acc n.sources) a1
      refine ⟨ih1, fun x hx => ih2 x (a2 x hx), ?_⟩
      intro node hn hne s hs
      rcases List.mem_cons.mp hn with rfl | hn
      · exact ih2 _ (a3 s hs)
      · exact ih3 node hn hne s hs

/-- Helper: the Python max-by-confidence pick is a member of the cluster. -/
theorem foldl_choose_mem (l : List Node) :
    ∀ b : Node,
      l.foldl (fun b n => if b.confidence < n.confidence then n else b) b = b ∨
      l.foldl (fun b n => if b.confidence < n.confidence then n else b) b ∈ l := by
  induction l with
  | nil => exact fun b => Or.inl rfl
  | cons n ns ih =>
    intro b
    simp only [List.foldl_cons]
    by_cases hc : b.confidence < n.confidence
    · rw [if_pos hc]
      rcases ih n with h | h
      · refine Or.inr ?_
        rw [h]
        exact List.mem_cons_self n ns
      · exact Or.inr (List.mem_cons_of_mem n h)
    · rw [if_neg hc]
      rcases ih b with h | h
      · exact Or.inl h
      · exact Or.inr (List.mem_cons_of_mem n h)

theorem maxByConfidence_mem (n0 : Node) (rest : List Node) :
    maxByConfidence n0 rest ∈ n0 :: rest := by
  unfold maxByConfidence
  rcases foldl_choose_mem rest n0 with h | h
  · rw [h]
    exact List.mem_cons_self n0 rest
  · exact List.mem_cons_of_mem n0 h

/-- Helper: in a list of nodes with pairwise distinct ids, equal ids give
equal nodes. -/
theorem pairwise_id_unique {l : List Node}
    (hp : l.Pairwise (fun a b => a.node_id ≠ b.node_id)) :
    ∀ a ∈ l, ∀ b ∈ l, a.node_id = b.node_id → a = b := by
  induction l with
  | nil => intro a ha; exact absurd ha (List.not_mem_nil a)
  | cons x xs ih =>
    intro a ha b hb heq
    obtain ⟨hx, hp'⟩ := List.pairwise_cons.mp hp
    rcases List.mem_cons.mp ha with rfl | ha' <;> rcases List.mem_cons.mp hb with rfl | hb'
    · rfl
    · exact absurd heq (hx b hb')
    · exact absurd heq.symm (hx a ha')
    · exact ih hp' a ha' b hb' heq

/-- C5: merging a nonempty cluster with pairwise distinct node ids keeps
every distinct source id of every member in the merged sources, and the
merged confidence is exactly the maximum confidence over the members. -/
theorem C5_simple_merge (n0 : Node) (rest : List Node)
    (hdist : (n0 :: rest).Pairwise (fun a b => a.node_id ≠ b.node_id)) :
    ∃ m, simple_merge (n0 :: rest) = some m ∧
      (∀ node ∈ n0 :: rest, ∀ s ∈ node.sources, s.source_id ∈ m.sources.map (·.source_id)) ∧
      (∀ node ∈ n0 :: rest, node.confidence ≤ m.confidence) ∧
      (∃ node ∈ n0 :: rest, m.confidence = node.confidence) := by
  refine ⟨_, rfl, ?_, ?_, ?_⟩
  · intro node hn s hs
    have hP0 : ∀ x, x ∈ (maxByConfidence n0 rest).sources.map (·.source_id) ↔
        x ∈ ((maxByConfidence n0 rest, (maxByConfidence n0 rest).sources.map
          (·.source_id)) : Node × List String).1.sources.map (·.source_id) :=
      fun x => Iff.rfl
    obtain ⟨P1, P2, P3⟩ := mergeFold_spec (maxByConfidence n0 rest) (n0 :: rest)
      (maxByConfidence n0 rest, (maxByConfidence n0 rest).sources.map (·.source_id))
      (fun x => Iff.rfl)
    show s.source_id ∈ ((n0 :: rest).foldl (mergeStep (maxByConfidence n0 rest))
      (maxByConfidence n0 rest, (maxByConfidence n0 rest).sources.map
        (·.source_id))).1.sources.map (·.source_id)
    by_cases hid : node.node_id = (maxByConfidence n0 rest).node_id
    · have hnode : node = maxByConfidence n0 rest :=
        pairwise_id_unique hdist node hn (maxByConfidence n0 rest)
          (maxByConfidence_mem n0 rest) hid
      refine (P1 s.source_id).mp (P2 s.source_id ?_)
      rw [← hnode]
      exact List.mem_map_of_mem _ hs
    · exact (P1 s.source_id).mp (P3 node hn hid s hs)
  · intro node hn
    show node.confidence ≤ rest.foldl (fun m n => max m n.confidence) n0.confidence
    have hconv : rest.foldl (fun m n => max m n.confidence) n0.confidence =
        (rest.map (·.confidence)).foldl max n0.confidence := (List.foldl_map _ _ _ _).symm
    rw [hconv]
    rcases List.mem_cons.mp hn with rfl | hn
    · exact foldl_max_ge_start _ _
    · exact foldl_max_ge_mem _ _ _ (List.mem_map_of_mem _ hn)
  · show ∃ node ∈ n0 :: rest,
      rest.foldl (fun m n => max m n.confidence) n0.confidence = node.confidence
    have hconv : rest.foldl (fun m n => max m n.confidence) n0.confidence =
        (rest.map (·.confidence)).foldl max n0.confidence := (List.foldl_map _ _ _ _).symm
    rw [hconv]
    rcases foldl_max_attained (rest.map (·.confidence)) n0.confidence with h | h
    · exact ⟨n0, List.mem_cons_self n0 rest, h⟩
    · obtain ⟨q, hq, hq2⟩ := List.mem_map.mp h
      exact ⟨q, List.mem_cons_of_mem n0 hq, hq2.symm⟩

/-- Witness for C5 on a two-node cluster with distinct ids. -/
theorem C5_simple_merge_witness :
    ([nodeWithSource "N1" (9/10) "s1", nodeWithSource "N2" (8/10) "s2"].Pairwise
      (fun a b => a.node_id ≠ b.node_id)) ∧
    (∃ m, simple_merge [nodeWithSource "N1" (9/10) "s1", nodeWithSource "N2" (8/10) "s2"] =
        some m ∧
      (∀ node ∈ [nodeWithSource "N1" (9/10) "s1", nodeWithSource "N2" (8/10) "s2"],
        ∀ s ∈ node.sources, s.source_id ∈ m.sources.map (·.source_id)) ∧
      (∀ node ∈ [nodeWithSource "N1" (9/10) "s1", nodeWithSource "N2" (8/10) "s2"],
        node.confidence ≤ m.confidence) ∧
      (∃ node ∈ [nodeWithSource "N1" (9/10) "s1", nodeWithSource "N2" (8/10) "s2"],
        m.confidence = node.confidence)) :=
  ⟨by decide, C5_simple_merge (nodeWithSource "N1" (9/10) "s1")
    [nodeWithSource "N2" (8/10) "s2"] (by decide)⟩

end Rootsearch
